import Mathlib

/-!
Verification of the provenance-aware reconciliation core of the Data_Crawler
repository (package `zuiku`).  The Python modules `smart_crawler_sync.py`,
`race_events_manager.py`, `data_processor.py`, `smart_data_completer.py` and
`data_completer_enhanced.py` are shallowly embedded: dynamic Python values
become the `PyVal` type, database rows become `Row` (a field map plus the
`manually_modified_fields` list), candidate crawler dicts become `Cand`, and
the SQL update/insert cycle of one sync pass becomes a pure fold over the list
of category rows.  Timestamp columns (`updated_at`, `crawler_updated_at`) and
connection management are outside the embedded state.
-/

namespace Zuiku

/-- Dynamic Python value as it occurs in the crawler dicts and DB rows:
`None`, a string, or a number (ints and floats both modelled as rationals). -/
inductive PyVal where
  | vnone
  | vstr (s : String)
  | vnum (q : ℚ)
deriving DecidableEq

/-- Python truthiness for the values of `PyVal`: `None`, the empty string and
numeric zero are falsy, everything else truthy (`if crawler_data[field]:`). -/
def truthy : PyVal → Bool
  | .vnone => false
  | .vstr s => s != ""
  | .vnum q => q != 0

/-- A crawler dict (candidate record): a partial map from field names to
values; `none` means the key is absent from the dict. -/
def Cand : Type := String → Option PyVal

/-- Value of field `f` in a candidate dict, with absent keys reading as
`None` (this matches `crawler_cat.get(f)`); the membership-and-truthiness
test `f in d and d[f]` is equivalent to `truthy (candVal d f)`. -/
def candVal (c : Cand) (f : String) : PyVal := (c f).getD .vnone

/-- A stored row of `race_events` or `race_categories`: the data columns
plus the decoded `manually_modified_fields` JSON list. -/
@[ext]
structure Row where
  fields : String → PyVal
  mm : List String

/-- Default row used for safe list indexing (all columns NULL, no manual
marks). -/
def dRow : Row := ⟨fun _ => .vnone, []⟩

/-- Field mapping of `_update_race_event_protected` (crawler key and DB
column coincide for every entry of `event_field_mapping`). -/
def eventFields : List String :=
  ["event_url", "name", "event_date", "event_level", "location",
   "detailed_address", "status", "total_scale", "registration_fee",
   "organizer", "host_units", "co_organizers", "supporters",
   "contact_phone", "contact_email", "contact_person",
   "registration_deadline", "description", "event_detail",
   "news_content", "news_url", "raw_html"]

/-- Field mapping of `_update_race_category_protected` and of
`_insert_race_category` (`category_field_mapping`, identical key lists). -/
def catFields : List String :=
  ["name", "distance", "distance_numeric", "fee", "price_per_km",
   "zaoniao_fee", "total_quota", "registered_count", "start_time",
   "cutoff_time", "registration_status", "registration_url"]

/-- Embedding of `SmartCrawlerSync._update_race_event_protected`: a mapped
field is overwritten with the candidate value exactly when it is not in
`manually_modified_fields` and the candidate dict holds a truthy value for
it; `manually_modified_fields` itself is never written by this path. -/
def updateRaceEventProtected (db : Row) (cd : Cand) : Row :=
  { fields := fun f =>
      if f ∈ eventFields ∧ f ∉ db.mm ∧ truthy (candVal cd f) then candVal cd f
      else db.fields f,
    mm := db.mm }

/-- Embedding of `SmartCrawlerSync._update_race_category_protected`: same
update rule as the event-level one, over `category_field_mapping`. -/
def updCat (r : Row) (c : Cand) : Row :=
  { fields := fun f =>
      if f ∈ catFields ∧ f ∉ r.mm ∧ truthy (candVal c f) then candVal c f
      else r.fields f,
    mm := r.mm }

/-- Embedding of `SmartCrawlerSync._insert_race_category`: the new row takes
`crawler_cat.get(f)` for every mapped field (dropping `None` values leaves
the column NULL, which reads back as `vnone`); the fresh row's
`manually_modified_fields` column defaults to the empty list (`database.py`
declares `default='[]'`). -/
def insertCat (c : Cand) : Row :=
  { fields := fun f => if f ∈ catFields then candVal c f else .vnone,
    mm := [] }

/-- SQL blank-name test `name IS NULL OR name = ''` on a stored value. -/
def blankName (v : PyVal) : Bool := v == .vnone || v == .vstr ""

/-- Category lookup of `smart_sync_to_mysql`: with a truthy candidate name
the row is matched by `name = %s`, otherwise by `name IS NULL OR name=''`. -/
def matchCat (c : Cand) (r : Row) : Bool :=
  if truthy (candVal c "name") then r.fields "name" == candVal c "name"
  else blankName (r.fields "name")

/-- One candidate category processed by `smart_sync_to_mysql`: the first
stored row it matches is updated in place, otherwise a new row is appended. -/
def upsert (c : Cand) : List Row → List Row
  | [] => [insertCat c]
  | r :: rs => if matchCat c r then updCat r c :: rs else r :: upsert c rs

/-- The category half of one sync pass: the candidate categories are
processed left to right against the stored rows. -/
def syncCats (rows : List Row) (cs : List Cand) : List Row :=
  cs.foldl (fun rs c => upsert c rs) rows

/-- Stored state touched by one pass: the `race_events` row and its
`race_categories` rows. -/
@[ext]
structure SyncState where
  event : Row
  cats : List Row

/-- The `crawler_data` argument of `smart_sync_to_mysql`: event-level fields
plus the `race_categories` list. -/
structure CrawlerData where
  eventData : Cand
  raceCategories : List Cand

/-- Embedding of one successful `SmartCrawlerSync.smart_sync_to_mysql` pass
over an existing event (the not-found early return leaves the state
untouched and is omitted). -/
def smartSyncPass (st : SyncState) (cd : CrawlerData) : SyncState :=
  { event := updateRaceEventProtected st.event cd.eventData,
    cats := syncCats st.cats cd.raceCategories }

/-! ### Protection of manually modified fields (claims C1, C10) -/

/-- Relation between a stored row and its successor: the manual-mark list is
unchanged and every marked field keeps its value. -/
def protEq (a b : Row) : Prop :=
  b.mm = a.mm ∧ ∀ f ∈ a.mm, b.fields f = a.fields f

lemma protEq_refl (a : Row) : protEq a a := ⟨rfl, fun _ _ => rfl⟩

lemma protEq_trans {a b c : Row} (h1 : protEq a b) (h2 : protEq b c) :
    protEq a c := by
  refine ⟨h2.1.trans h1.1, fun f hf => ?_⟩
  have hb : f ∈ b.mm := h1.1 ▸ hf
  exact (h2.2 f hb).trans (h1.2 f hf)

lemma updCat_protEq (r : Row) (c : Cand) : protEq r (updCat r c) := by
  refine ⟨rfl, fun f hf => ?_⟩
  simp only [updCat]
  exact if_neg (fun h => h.2.1 hf)

lemma updCat_mm (r : Row) (c : Cand) : (updCat r c).mm = r.mm := rfl

lemma upsert_length (c : Cand) (rows : List Row) :
    rows.length ≤ (upsert c rows).length := by
  induction rows with
  | nil => simp [upsert]
  | cons r rs ih =>
    by_cases h : matchCat c r
    · simp [upsert, h]
    · simpa [upsert, h] using ih

lemma upsert_getD_protEq (c : Cand) (rows : List Row) (i : ℕ)
    (h : i < rows.length) :
    protEq (rows.getD i dRow) ((upsert c rows).getD i dRow) := by
  induction rows generalizing i with
  | nil => simp at h
  | cons r rs ih =>
    by_cases hm : matchCat c r
    · cases i with
      | zero => simpa [upsert, hm] using updCat_protEq r c
      | succ j => simp [upsert, hm, protEq_refl]
    · cases i with
      | zero => simp [upsert, hm, protEq_refl]
      | succ j =>
        have hj : j < rs.length := by simpa using h
        simpa [upsert, hm] using ih j hj

lemma syncCats_length (rows : List Row) (cs : List Cand) :
    rows.length ≤ (syncCats rows cs).length := by
  induction cs generalizing rows with
  | nil => simp [syncCats]
  | cons c cs ih =>
    calc rows.length ≤ (upsert c rows).length := upsert_length c rows
      _ ≤ (syncCats (upsert c rows) cs).length := ih (upsert c rows)

lemma syncCats_getD_protEq (rows : List Row) (cs : List Cand) (i : ℕ)
    (h : i < rows.length) :
    protEq (rows.getD i dRow) ((syncCats rows cs).getD i dRow) := by
  induction cs generalizing rows with
  | nil => exact protEq_refl _
  | cons c cs ih =>
    have h2 : i < (upsert c rows).length := lt_of_lt_of_le h (upsert_length c rows)
    exact protEq_trans (upsert_getD_protEq c rows i h) (ih (upsert c rows) h2)

lemma updateRaceEventProtected_mm (db : Row) (cd : Cand) :
    (updateRaceEventProtected db cd).mm = db.mm := rfl

lemma updateRaceEventProtected_protected (db : Row) (cd : Cand) (f : String)
    (hf : f ∈ db.mm) :
    (updateRaceEventProtected db cd).fields f = db.fields f := by
  simp only [updateRaceEventProtected]
  exact if_neg (fun h => h.2.1 hf)

/-- C1: in an automated sync pass, every field listed in the stored record's
`manually_modified_fields` keeps its stored value, at the event level for the
`race_events` row and at the category level for each stored `race_categories`
row, whatever values the crawler data proposes. -/
theorem c1_protection_invariant (st : SyncState) (cd : CrawlerData) (f : String) :
    (f ∈ st.event.mm →
      (smartSyncPass st cd).event.fields f = st.event.fields f) ∧
    (∀ i < st.cats.length, f ∈ (st.cats.getD i dRow).mm →
      ((smartSyncPass st cd).cats.getD i dRow).fields f
        = (st.cats.getD i dRow).fields f) := by
  constructor
  · intro hf
    exact updateRaceEventProtected_protected st.event cd.eventData f hf
  · intro i hi hf
    exact (syncCats_getD_protEq st.cats cd.raceCategories i hi).2 f hf

/-- Concrete instantiation of `c1_protection_invariant`: the event name is
manually fixed to `A` and the first category's fee to `999`; a pass proposing
name `B` and fee `50` leaves both untouched. -/
def c1St : SyncState :=
  ⟨⟨fun f => if f = "name" then .vstr "A" else .vnone, ["name"]⟩,
   [⟨fun f => if f = "fee" then .vnum 999 else .vnone, ["fee"]⟩]⟩

/-- Candidate input used by the C1 witness. -/
def c1Cd : CrawlerData :=
  ⟨fun f => if f = "name" then some (.vstr "B") else none,
   [fun f => if f = "fee" then some (.vnum 50) else none]⟩

/-- Witness for C1 at a concrete protected record and candidate. -/
theorem c1_protection_invariant_witness :
    (smartSyncPass c1St c1Cd).event.fields "name" = c1St.event.fields "name" ∧
    ((smartSyncPass c1St c1Cd).cats.getD 0 dRow).fields "fee"
      = (c1St.cats.getD 0 dRow).fields "fee" := by
  refine ⟨(c1_protection_invariant c1St c1Cd "name").1 (by decide), ?_⟩
  exact (c1_protection_invariant c1St c1Cd "fee").2 0 (by decide) (by decide)

/-- C10: the sync writes only truthy candidate values, so a candidate that
omits a field or carries a falsy value (`None`, empty string, numeric 0)
leaves the stored value unchanged, at the event level of a pass and in the
category update routine. -/
theorem c10_falsy_values_never_written (st : SyncState) (cd : CrawlerData)
    (r : Row) (c : Cand) (f : String) :
    (¬ truthy (candVal cd.eventData f) →
      (smartSyncPass st cd).event.fields f = st.event.fields f) ∧
    (¬ truthy (candVal c f) → (updCat r c).fields f = r.fields f) := by
  constructor
  · intro hf
    simp only [smartSyncPass, updateRaceEventProtected]
    exact if_neg (fun h => hf h.2.2)
  · intro hf
    simp only [updCat]
    exact if_neg (fun h => hf h.2.2)

/-- Witness for C10: a candidate carrying fee `0` and omitting
`total_quota` changes neither stored field. -/
theorem c10_falsy_values_never_written_witness :
    ((smartSyncPass ⟨dRow, []⟩ ⟨fun _ => none, []⟩).event.fields "total_quota"
      = dRow.fields "total_quota") ∧
    ((updCat dRow (fun f => if f = "fee" then some (.vnum 0) else none)).fields "fee"
      = dRow.fields "fee") := by
  constructor
  · exact (c10_falsy_values_never_written ⟨dRow, []⟩ ⟨fun _ => none, []⟩ dRow
      (fun _ => none) "total_quota").1 (by decide)
  · exact (c10_falsy_values_never_written ⟨dRow, []⟩ ⟨fun _ => none, []⟩ dRow
      (fun f => if f = "fee" then some (.vnum 0) else none) "fee").2 (by decide)

/-! ### Idempotence of the sync pass (claim C3)

The lookup key of a candidate or stored row is its name when truthy, and a
common blank class for `None`/empty names (the SQL branch
`name IS NULL OR name=''`).  Keys are stable under matched updates, which
lets the fold over candidates be analysed head-row by head-row. -/

/-- Matching key of a candidate category. -/
def ckey (c : Cand) : Option PyVal :=
  if truthy (candVal c "name") then some (candVal c "name") else none

/-- Matching key of a stored category row. -/
def rkey (r : Row) : Option PyVal :=
  if blankName (r.fields "name") then none else some (r.fields "name")

/-- Well-typed candidate name: a string or `None` (never a nonzero-falsy
number such as numeric `0`, which a real `name` column cannot hold). -/
def nameOk (c : Cand) : Bool :=
  truthy (candVal c "name") || blankName (candVal c "name")

lemma truthy_not_blank {v : PyVal} (h : truthy v = true) :
    blankName v = false := by
  cases v with
  | vnone => simp [truthy] at h
  | vstr s =>
    simp only [truthy, bne_iff_ne, ne_eq] at h
    simp [blankName, h]
  | vnum q => simp [blankName]

lemma matchCat_iff (c : Cand) (r : Row) :
    matchCat c r = true ↔ rkey r = ckey c := by
  unfold matchCat ckey rkey
  by_cases ht : truthy (candVal c "name")
  · rw [if_pos ht, if_pos ht]
    constructor
    · intro h
      have he : r.fields "name" = candVal c "name" := beq_iff_eq.mp h
      rw [he, truthy_not_blank ht, if_neg (by simp)]
    · intro h
      by_cases hb : blankName (r.fields "name")
      · rw [if_pos hb] at h; exact absurd h (by simp)
      · rw [if_neg hb] at h
        exact beq_iff_eq.mpr (Option.some_injective _ h)
  · rw [if_neg ht, if_neg ht]
    by_cases hb : blankName (r.fields "name")
    · simp [hb]
    · simp [hb]

lemma updCat_name_of_match {c : Cand} {r : Row} (h : matchCat c r = true) :
    (updCat r c).fields "name" = r.fields "name" := by
  simp only [updCat]
  by_cases hw : "name" ∈ catFields ∧ "name" ∉ r.mm ∧ truthy (candVal c "name")
  · rw [if_pos hw]
    unfold matchCat at h
    rw [if_pos hw.2.2] at h
    exact (beq_iff_eq.mp h).symm
  · rw [if_neg hw]

lemma rkey_updCat {c : Cand} {r : Row} (h : matchCat c r = true) :
    rkey (updCat r c) = rkey r := by
  unfold rkey
  rw [updCat_name_of_match h]

lemma blank_not_truthy {v : PyVal} (h : blankName v = true) :
    truthy v = false := by
  cases v with
  | vnone => rfl
  | vstr s =>
    simp only [blankName, Bool.or_eq_true, beq_iff_eq] at h
    rcases h with h | h
    · exact absurd h (by simp)
    · simp only [PyVal.vstr.injEq] at h
      simp [truthy, h]
  | vnum q => simp [blankName] at h

lemma insertCat_name (c : Cand) :
    (insertCat c).fields "name" = candVal c "name" := by
  simp only [insertCat]
  rw [if_pos (by decide : "name" ∈ catFields)]

lemma rkey_insertCat {c : Cand} (h : nameOk c = true) :
    rkey (insertCat c) = ckey c := by
  unfold rkey ckey
  rw [insertCat_name]
  have h2 : truthy (candVal c "name") = true ∨ blankName (candVal c "name") = true := by
    simpa [nameOk] using h
  rcases h2 with ht | hb
  · rw [if_pos ht, if_neg (by simp [truthy_not_blank ht])]
  · rw [if_pos hb, if_neg (by simp [blank_not_truthy hb])]

lemma updCat_insertCat (c : Cand) : updCat (insertCat c) c = insertCat c := by
  refine Row.ext ?_ rfl
  funext f
  simp only [updCat, insertCat]
  by_cases h : f ∈ catFields ∧ f ∉ ([] : List String) ∧ truthy (candVal c f)
  · rw [if_pos h, if_pos h.1]
  · rw [if_neg h]

lemma upsert_of_ex_match {c : Cand} {rows : List Row}
    (h : ∃ r ∈ rows, matchCat c r = true) (X : List Row) :
    upsert c (rows ++ X) = upsert c rows ++ X := by
  induction rows with
  | nil => simp at h
  | cons r rs ih =>
    by_cases hm : matchCat c r
    · simp [upsert, hm]
    · obtain ⟨r', hr', hm'⟩ := h
      rcases List.mem_cons.mp hr' with rfl | hr'
      · exact absurd hm' (by simp [hm])
      · simp [upsert, hm, ih ⟨r', hr', hm'⟩]

lemma upsert_of_no_match {c : Cand} {rows : List Row}
    (h : ∀ r ∈ rows, matchCat c r = false) :
    upsert c rows = rows ++ [insertCat c] := by
  induction rows with
  | nil => rfl
  | cons r rs ih =>
    have hm : matchCat c r = false := h r (List.mem_cons_self r rs)
    simp only [upsert, hm, Bool.false_eq_true, if_false, List.cons_append,
      List.cons.injEq, true_and]
    exact ih (fun r' hr' => h r' (List.mem_cons_of_mem r hr'))

lemma upsert_append_of_no_match {c : Cand} {rows : List Row}
    (h : ∀ r ∈ rows, matchCat c r = false) (X : List Row) :
    upsert c (rows ++ X) = rows ++ upsert c X := by
  induction rows with
  | nil => rfl
  | cons r rs ih =>
    have hm : matchCat c r = false := h r (List.mem_cons_self r rs)
    simp only [upsert, List.cons_append, hm, Bool.false_eq_true, if_false,
      List.cons.injEq, true_and]
    exact ih (fun r' hr' => h r' (List.mem_cons_of_mem r hr'))

lemma upsert_map_rkey_of_ex_match {c : Cand} {rows : List Row}
    (h : ∃ r ∈ rows, matchCat c r = true) :
    (upsert c rows).map rkey = rows.map rkey := by
  induction rows with
  | nil => simp at h
  | cons r rs ih =>
    by_cases hm : matchCat c r
    · simp [upsert, hm, rkey_updCat hm]
    · obtain ⟨r', hr', hm'⟩ := h
      rcases List.mem_cons.mp hr' with rfl | hr'
      · exact absurd hm' (by simp [hm])
      · simp [upsert, hm, ih ⟨r', hr', hm'⟩]

/-- Repeated in-place update of one row by a sequence of candidates. -/
def foldlUpd (r : Row) (ms : List Cand) : Row := ms.foldl updCat r

/-- Write condition of `updCat` for field `f` (mapped, unprotected, truthy
candidate value). -/
def wr (mm : List String) (c : Cand) (f : String) : Prop :=
  f ∈ catFields ∧ f ∉ mm ∧ truthy (candVal c f)

instance (mm : List String) (c : Cand) (f : String) : Decidable (wr mm c f) := by
  unfold wr; infer_instance

lemma updCat_fields (r : Row) (c : Cand) (f : String) :
    (updCat r c).fields f = if wr r.mm c f then candVal c f else r.fields f := rfl

/-- Value written to field `f` by the last candidate of `ms` that writes it,
if any. -/
def lastW (mm : List String) (ms : List Cand) (f : String) : Option PyVal :=
  match ms with
  | [] => none
  | c :: ms =>
    match lastW mm ms f with
    | some v => some v
    | none => if wr mm c f then some (candVal c f) else none

lemma foldlUpd_mm (r : Row) (ms : List Cand) : (foldlUpd r ms).mm = r.mm := by
  induction ms generalizing r with
  | nil => rfl
  | cons c ms ih => exact (ih (updCat r c)).trans rfl

lemma foldlUpd_fields (r : Row) (ms : List Cand) (f : String) :
    (foldlUpd r ms).fields f = (lastW r.mm ms f).getD (r.fields f) := by
  induction ms generalizing r with
  | nil => rfl
  | cons c ms ih =>
    show (foldlUpd (updCat r c) ms).fields f = _
    rw [ih (updCat r c)]
    have hmm : (updCat r c).mm = r.mm := rfl
    rw [hmm]
    cases h : lastW r.mm ms f with
    | some v => simp [lastW, h]
    | none =>
      simp only [lastW, h, Option.getD_none, updCat_fields]
      by_cases hw : wr r.mm c f
      · simp [hw]
      · simp [hw]

lemma foldlUpd_absorb (r : Row) (ms : List Cand) :
    foldlUpd (foldlUpd r ms) ms = foldlUpd r ms := by
  refine Row.ext ?_ (by rw [foldlUpd_mm, foldlUpd_mm])
  funext f
  rw [foldlUpd_fields, foldlUpd_fields, foldlUpd_mm]
  cases h : lastW r.mm ms f with
  | some v => simp [h]
  | none => simp [h]

lemma rkey_foldlUpd {r : Row} {ms : List Cand}
    (h : ∀ c ∈ ms, ckey c = rkey r) : rkey (foldlUpd r ms) = rkey r := by
  induction ms generalizing r with
  | nil => rfl
  | cons c ms ih =>
    have hm : matchCat c r = true :=
      (matchCat_iff c r).mpr (h c (List.mem_cons_self c ms)).symm
    show rkey (foldlUpd (updCat r c) ms) = rkey r
    rw [ih (fun c' hc' => by
      rw [rkey_updCat hm]
      exact h c' (List.mem_cons_of_mem c hc')), rkey_updCat hm]

/-- Factorization of the category fold: the head row absorbs exactly the
candidates carrying its key, the rest act on the tail. -/
lemma syncCats_cons (r : Row) (rs : List Row) (cs : List Cand) :
    syncCats (r :: rs) cs
      = foldlUpd r (cs.filter (fun c => ckey c == rkey r))
        :: syncCats rs (cs.filter (fun c => ckey c != rkey r)) := by
  induction cs generalizing r rs with
  | nil => rfl
  | cons c cs ih =>
    show syncCats (upsert c (r :: rs)) cs = _
    by_cases hk : ckey c = rkey r
    · have hm : matchCat c r = true := (matchCat_iff c r).mpr hk.symm
      have h1 : upsert c (r :: rs) = updCat r c :: rs := by simp [upsert, hm]
      rw [h1, ih (updCat r c) rs, rkey_updCat hm]
      congr 1
      · rw [List.filter_cons_of_pos (by simp [hk])]
        rfl
      · rw [List.filter_cons_of_neg (by simp [hk])]
    · have hm : matchCat c r = false := by
        rcases Bool.eq_false_or_eq_true (matchCat c r) with h | h
        · exact absurd ((matchCat_iff c r).mp h).symm hk
        · exact h
      have h1 : upsert c (r :: rs) = r :: upsert c rs := by simp [upsert, hm]
      rw [h1, ih r (upsert c rs)]
      congr 1
      · rw [List.filter_cons_of_neg (by simp [hk])]
      · rw [List.filter_cons_of_pos (by simp [hk])]
        rfl

/-- Re-running the fold is the identity when every candidate already has a
matching stored row (no inserts happen). -/
lemma syncCats_idem_of_present (rows : List Row) (cs : List Cand)
    (h : ∀ c ∈ cs, ∃ r ∈ rows, rkey r = ckey c) :
    syncCats (syncCats rows cs) cs = syncCats rows cs := by
  induction rows generalizing cs with
  | nil =>
    cases cs with
    | nil => rfl
    | cons c cs =>
      obtain ⟨r, hr, _⟩ := h c (List.mem_cons_self c cs)
      exact absurd hr (List.not_mem_nil r)
  | cons r rs ih =>
    rw [syncCats_cons r rs cs]
    rw [syncCats_cons]
    have hfilter : ∀ c ∈ cs.filter (fun c => ckey c == rkey r), ckey c = rkey r := by
      intro c hc
      have := (List.mem_filter.mp hc).2
      exact beq_iff_eq.mp this
    have hA : rkey (foldlUpd r (cs.filter (fun c => ckey c == rkey r))) = rkey r :=
      rkey_foldlUpd hfilter
    rw [hA]
    congr 1
    · exact foldlUpd_absorb r _
    · apply ih
      intro c hc
      obtain ⟨r', hr', hk⟩ := h c (List.mem_of_mem_filter hc)
      rcases List.mem_cons.mp hr' with rfl | hr'
      · exfalso
        have := (List.mem_filter.mp hc).2
        rw [bne_iff_ne] at this
        exact this hk.symm
      · exact ⟨r', hr', hk⟩

/-- Rows that the first run will insert: one skeleton per key of `cs` not
already present among the keys `ks`, in first-occurrence order. -/
def seeds (ks : List (Option PyVal)) : List Cand → List Row
  | [] => []
  | c :: cs =>
    if ckey c ∈ ks then seeds ks cs
    else insertCat c :: seeds (ckey c :: ks) cs

/-- Pre-appending the insert skeletons does not change the outcome of the
fold: each candidate that would have inserted now updates its own skeleton
with its own values, a no-op. -/
lemma syncCats_seeds (cs : List Cand) :
    ∀ (rows : List Row) (ks : List (Option PyVal)),
    (∀ k, k ∈ ks ↔ k ∈ rows.map rkey) →
    (∀ c ∈ cs, nameOk c = true) →
    syncCats rows cs = syncCats (rows ++ seeds ks cs) cs := by
  induction cs with
  | nil => intro rows ks _ _; simp [syncCats, seeds]
  | cons c cs ih =>
    intro rows ks hks hok
    show syncCats (upsert c rows) cs = syncCats (upsert c (rows ++ seeds ks (c :: cs))) cs
    by_cases hc : ckey c ∈ ks
    · obtain ⟨r, hr, hk⟩ := List.mem_map.mp ((hks _).mp hc)
      have hmatch : ∃ r ∈ rows, matchCat c r = true :=
        ⟨r, hr, (matchCat_iff c r).mpr hk⟩
      have hseed : seeds ks (c :: cs) = seeds ks cs := by
        simp [seeds, hc]
      rw [hseed, upsert_of_ex_match hmatch]
      apply ih (upsert c rows) ks ?_ (fun c' hc' => hok c' (List.mem_cons_of_mem c hc'))
      intro k
      rw [upsert_map_rkey_of_ex_match hmatch]
      exact hks k
    · have hnom : ∀ r ∈ rows, matchCat c r = false := by
        intro r hr
        rcases Bool.eq_false_or_eq_true (matchCat c r) with h | h
        · exfalso
          apply hc
          rw [hks]
          exact List.mem_map.mpr ⟨r, hr, (matchCat_iff c r).mp h⟩
        · exact h
      have hseed : seeds ks (c :: cs) = insertCat c :: seeds (ckey c :: ks) cs := by
        simp [seeds, hc]
      have hokc : nameOk c = true := hok c (List.mem_cons_self c cs)
      have hmi : matchCat c (insertCat c) = true :=
        (matchCat_iff c (insertCat c)).mpr (rkey_insertCat hokc)
      have hrhs : upsert c (rows ++ seeds ks (c :: cs))
          = (rows ++ [insertCat c]) ++ seeds (ckey c :: ks) cs := by
        rw [hseed, upsert_append_of_no_match hnom]
        have : upsert c (insertCat c :: seeds (ckey c :: ks) cs)
            = insertCat c :: seeds (ckey c :: ks) cs := by
          simp [upsert, hmi, updCat_insertCat]
        rw [this]
        simp
      rw [hrhs, upsert_of_no_match hnom]
      apply ih (rows ++ [insertCat c]) (ckey c :: ks)
        ?_ (fun c' hc' => hok c' (List.mem_cons_of_mem c hc'))
      intro k
      simp only [List.mem_cons, List.map_append, List.mem_append, List.map_cons,
        List.map_nil, List.mem_singleton, rkey_insertCat hokc]
      rw [hks k]
      tauto

/-- After seeding, every candidate key is present among the rows. -/
lemma seeds_cover (cs : List Cand) :
    ∀ (ks : List (Option PyVal)),
    (∀ c ∈ cs, nameOk c = true) →
    ∀ c ∈ cs, ckey c ∈ ks ∨ ckey c ∈ (seeds ks cs).map rkey := by
  induction cs with
  | nil => intro ks _ c hc; simp at hc
  | cons c cs ih =>
    intro ks hok c' hc'
    by_cases hc : ckey c ∈ ks
    · rw [show seeds ks (c :: cs) = seeds ks cs by simp [seeds, hc]]
      rcases List.mem_cons.mp hc' with rfl | hc'
      · exact Or.inl hc
      · exact ih ks (fun x hx => hok x (List.mem_cons_of_mem c hx)) c' hc'
    · have hokc : nameOk c = true := hok c (List.mem_cons_self c cs)
      rw [show seeds ks (c :: cs) = insertCat c :: seeds (ckey c :: ks) cs by
        simp [seeds, hc]]
      simp only [List.map_cons, List.mem_cons, rkey_insertCat hokc]
      rcases List.mem_cons.mp hc' with rfl | hc'
      · exact Or.inr (Or.inl rfl)
      · rcases ih (ckey c :: ks) (fun x hx => hok x (List.mem_cons_of_mem c hx)) c' hc' with
          h | h
        · rcases List.mem_cons.mp h with h | h
          · exact Or.inr (Or.inl h)
          · exact Or.inl h
        · exact Or.inr (Or.inr h)

/-- Idempotence of the category half of the pass, for well-typed category
names. -/
lemma syncCats_idem (rows : List Row) (cs : List Cand)
    (hok : ∀ c ∈ cs, nameOk c = true) :
    syncCats (syncCats rows cs) cs = syncCats rows cs := by
  have hseed := syncCats_seeds cs rows (rows.map rkey) (fun _ => Iff.rfl) hok
  have hpres : ∀ c ∈ cs, ∃ r ∈ rows ++ seeds (rows.map rkey) cs, rkey r = ckey c := by
    intro c hc
    rcases seeds_cover cs (rows.map rkey) hok c hc with h | h
    · obtain ⟨r, hr, hk⟩ := List.mem_map.mp h
      exact ⟨r, List.mem_append_left _ hr, hk⟩
    · obtain ⟨r, hr, hk⟩ := List.mem_map.mp h
      exact ⟨r, List.mem_append_right _ hr, hk⟩
  calc syncCats (syncCats rows cs) cs
      = syncCats (syncCats (rows ++ seeds (rows.map rkey) cs) cs) cs := by rw [← hseed]
    _ = syncCats (rows ++ seeds (rows.map rkey) cs) cs :=
        syncCats_idem_of_present _ cs hpres
    _ = syncCats rows cs := hseed.symm

lemma updateRaceEventProtected_idem (e : Row) (c : Cand) :
    updateRaceEventProtected (updateRaceEventProtected e c) c
      = updateRaceEventProtected e c := by
  refine Row.ext ?_ rfl
  funext f
  by_cases h : f ∈ eventFields ∧ f ∉ e.mm ∧ truthy (candVal c f)
  · show (if f ∈ eventFields ∧ f ∉ (updateRaceEventProtected e c).mm ∧ _ then _ else _) = _
    rw [updateRaceEventProtected_mm]
    simp [updateRaceEventProtected, h]
  · show (if f ∈ eventFields ∧ f ∉ (updateRaceEventProtected e c).mm ∧ _ then _ else _) = _
    rw [updateRaceEventProtected_mm]
    simp [updateRaceEventProtected, h]

/-- C3: the sync pass is idempotent: running it a second time with the same
crawler data against its own stored output changes nothing, provided every
candidate category name is well typed (a string or `None`).  Protected
fields stay put, resolved fields already equal their candidate values, and
each candidate that inserted a row on the first run now matches that row and
rewrites it with its own values. -/
theorem c3_sync_pass_idempotent (st : SyncState) (cd : CrawlerData)
    (hok : ∀ c ∈ cd.raceCategories, nameOk c = true) :
    smartSyncPass (smartSyncPass st cd) cd = smartSyncPass st cd := by
  refine SyncState.ext ?_ ?_
  · exact updateRaceEventProtected_idem st.event cd.eventData
  · exact syncCats_idem st.cats cd.raceCategories hok

/-- Witness for C3: a pass that updates the event name, updates one stored
category and inserts a previously unseen one is idempotent at this concrete
input. -/
theorem c3_sync_pass_idempotent_witness :
    smartSyncPass
        (smartSyncPass
          ⟨⟨fun _ => .vnone, []⟩,
           [⟨fun f => if f = "name" then .vstr "半程马拉松" else .vnone, []⟩]⟩
          ⟨fun f => if f = "name" then some (.vstr "E") else none,
           [fun f => if f = "name" then some (.vstr "半程马拉松")
             else if f = "fee" then some (.vnum 100) else none,
            fun f => if f = "name" then some (.vstr "全程马拉松") else none]⟩)
        ⟨fun f => if f = "name" then some (.vstr "E") else none,
         [fun f => if f = "name" then some (.vstr "半程马拉松")
           else if f = "fee" then some (.vnum 100) else none,
          fun f => if f = "name" then some (.vstr "全程马拉松") else none]⟩
      = smartSyncPass
        ⟨⟨fun _ => .vnone, []⟩,
         [⟨fun f => if f = "name" then .vstr "半程马拉松" else .vnone, []⟩]⟩
        ⟨fun f => if f = "name" then some (.vstr "E") else none,
         [fun f => if f = "name" then some (.vstr "半程马拉松")
           else if f = "fee" then some (.vnum 100) else none,
          fun f => if f = "name" then some (.vstr "全程马拉松") else none]⟩ := by
  apply c3_sync_pass_idempotent
  intro c hc
  rcases List.mem_cons.mp hc with rfl | hc
  · decide
  · rcases List.mem_cons.mp hc with rfl | hc
    · decide
    · simp at hc

/-! ### Value normalizers, `data_processor.py` (claims C6, C9)

Exceptions are made explicit: an operation that can raise returns
`Except PyExc` and the `try/except` blocks of the source become `catch`
combinators, so totality (`never raises`) is a provable property rather
than a modelling artifact.  Scope of the float model: finite decimal
literals with optional sign (no exponent notation, `inf`/`nan` words or
underscore separators), ASCII digits. -/

/-- Python exception kinds relevant to the embedded code. -/
inductive PyExc where
  | valueError
  | zeroDivisionError
deriving DecidableEq

deriving instance DecidableEq for Except

/-- ASCII digit test (the `\d` and `[^\d.]` character classes of the
source patterns, restricted to ASCII digits). -/
def isDig (c : Char) : Bool := c.isDigit

/-- Python `str.strip()` on a character list (leading and trailing
whitespace removed). -/
def pyStrip (cs : List Char) : List Char :=
  ((cs.dropWhile Char.isWhitespace).reverse.dropWhile Char.isWhitespace).reverse

/-- Python `str.lower()` on a character list (ASCII case folding; CJK
characters are unaffected, as in the source data). -/
def pyLower (cs : List Char) : List Char := cs.map Char.toLower

/-- Numeric value of a digit string. -/
def digitsVal (cs : List Char) : ℕ :=
  cs.foldl (fun a c => a * 10 + (c.toNat - 48)) 0

/-- Python `float` on a string made only of digits and dots: accepts
`d+`, `d+.d*` and `.d+`, rejects everything else (two dots, a lone dot,
the empty string). -/
def parseDigitsDots (cs : List Char) : Option ℚ :=
  let intPart := cs.takeWhile isDig
  let rest := cs.dropWhile isDig
  match rest with
  | [] => if intPart.isEmpty then none else some (digitsVal intPart)
  | c :: rest2 =>
    if c = '.' then
      let frac := rest2.takeWhile isDig
      let rest3 := rest2.dropWhile isDig
      if rest3.isEmpty ∧ ¬(intPart.isEmpty ∧ frac.isEmpty) then
        some ((digitsVal intPart : ℚ) + (digitsVal frac : ℚ) / (10 ^ frac.length))
      else none
    else none

/-- Python `float` on a general string: strip whitespace, optional sign,
then a digits-and-dot literal. -/
def pyFloat (s : String) : Option ℚ :=
  match pyStrip s.toList with
  | [] => none
  | c :: rest =>
    if c = '-' then (parseDigitsDots rest).map (fun q => -q)
    else if c = '+' then parseDigitsDots rest
    else parseDigitsDots (c :: rest)

/-- The cleaning step `re.sub(r'[^\d.]', '', s)`: keep only digits and
dots. -/
def cleanNumChars (cs : List Char) : List Char :=
  cs.filter (fun c => isDig c || c = '.')

/-- Catching `except ValueError: pass` around a raising computation, after
which the function falls through to its final `return None`. -/
def catchValueError (x : Except PyExc (Option ℚ)) : Except PyExc (Option ℚ) :=
  match x with
  | .error .valueError => .ok none
  | other => other

/-- The guarded fallback parse shared by both extractors: the cleaned
string is parsed as a float when nonempty; a parse failure raises
`ValueError` (caught by the caller's `except`); an empty cleaned string
falls through to `return None`. -/
def cleanedParse (cs : List Char) : Except PyExc (Option ℚ) :=
  if (cleanNumChars cs).isEmpty then .ok none
  else
    match parseDigitsDots (cleanNumChars cs) with
    | some q => .ok (some q)
    | none => .error .valueError

/-- Embedding of `DataProcessor.extract_fee_number`: falsy input and the
literal `'null'` give `None`; numeric input is returned unchanged; string
input is stripped of non-digit-non-dot characters and parsed, any
`ValueError` yielding `None`. -/
def extractFeeNumber (v : PyVal) : Except PyExc (Option ℚ) :=
  if (truthy v = false) ∨ v = .vstr "null" then .ok none
  else
    match v with
    | .vnum q => .ok (some q)
    | .vnone => .ok none
    | .vstr s => catchValueError (cleanedParse (pyStrip s.toList))

/-- Unit markers of `distance_patterns`, in source order
(`公里`, `km`, `k`, `千米`). -/
def distanceUnits : List (List Char) :=
  [['公', '里'], ['k', 'm'], ['k'], ['千', '米']]

/-- Greedy match of `(\d+\.?\d*)\s*UNIT` anchored at the start of `cs`,
returning the digit group.  For these patterns greedy matching coincides
with the backtracking semantics of `re`, since the unit markers start with
non-digit characters. -/
def matchNumUnitAt (unit : List Char) (cs : List Char) : Option (List Char) :=
  let ds := cs.takeWhile isDig
  if ds.isEmpty then none
  else
    let r1 := cs.dropWhile isDig
    let gr :=
      match r1 with
      | c :: rest =>
        if c = '.' then (ds ++ [c] ++ rest.takeWhile isDig, rest.dropWhile isDig)
        else (ds, r1)
      | [] => (ds, r1)
    let r3 := gr.2.dropWhile (fun c => c.isWhitespace)
    if List.isPrefixOf unit r3 then some gr.1 else none

/-- Leftmost search of the anchored pattern (`re.search`). -/
def searchNumUnit (unit : List Char) : List Char → Option (List Char)
  | [] => none
  | c :: rest =>
    match matchNumUnitAt unit (c :: rest) with
    | some g => some g
    | none => searchNumUnit unit rest

/-- The pattern loop of `extract_distance_number`: patterns are tried in
order; a match whose group fails to parse is skipped (`except ValueError:
continue`) — with these patterns the group always parses. -/
def distFromPatterns (cs : List Char) : List (List Char) → Option ℚ
  | [] => none
  | u :: us =>
    match searchNumUnit u cs with
    | some g =>
      match parseDigitsDots g with
      | some q => some q
      | none => distFromPatterns cs us
    | none => distFromPatterns cs us

/-- Embedding of `DataProcessor.extract_distance_number`: falsy input and
`'null'` give `None`; numeric input is returned unchanged; string input is
lower-cased and matched against the unit patterns, then falls back to the
clean-and-parse path with its `ValueError` caught. -/
def extractDistanceNumber (v : PyVal) : Except PyExc (Option ℚ) :=
  if (truthy v = false) ∨ v = .vstr "null" then .ok none
  else
    match v with
    | .vnum q => .ok (some q)
    | .vnone => .ok none
    | .vstr s =>
      let cs := pyLower (pyStrip s.toList)
      match distFromPatterns cs distanceUnits with
      | some q => .ok (some q)
      | none => catchValueError (cleanedParse cs)

/-- Round half to even on an integer boundary (Python `round`). -/
def roundHalfEven (x : ℚ) : ℤ :=
  let n := ⌊x⌋
  let r := x - n
  if r < 1/2 then n
  else if 1/2 < r then n + 1
  else if n % 2 = 0 then n else n + 1

/-- Python `round(x, 2)` on exact rationals. -/
def round2 (x : ℚ) : ℚ := (roundHalfEven (x * 100) : ℚ) / 100

/-- Embedding of `DataProcessor.calculate_price_per_km`: extract both
numbers, return `None` when either is missing, the distance is
non-positive or the fee negative, else the fee per kilometer rounded to
two decimals. -/
def calculatePricePerKm (fee dist : PyVal) : Except PyExc (Option ℚ) := do
  let feeN ← extractFeeNumber fee
  let distN ← extractDistanceNumber dist
  match feeN, distN with
  | some f, some d =>
    if d ≤ 0 then .ok none
    else if f < 0 then .ok none
    else .ok (some (round2 (f / d)))
  | _, _ => .ok none

lemma cleanedParse_catch_ok (cs : List Char) :
    ∃ r, catchValueError (cleanedParse cs) = .ok r := by
  by_cases h : (cleanNumChars cs).isEmpty = true
  · exact ⟨none, by simp [cleanedParse, catchValueError, h]⟩
  · cases hp : parseDigitsDots (cleanNumChars cs) with
    | none => exact ⟨none, by simp [cleanedParse, catchValueError, h, hp]⟩
    | some q => exact ⟨some q, by simp [cleanedParse, catchValueError, h, hp]⟩

lemma extractFeeNumber_ok (v : PyVal) : ∃ r, extractFeeNumber v = .ok r := by
  rw [extractFeeNumber.eq_def]
  by_cases h : (truthy v = false) ∨ v = .vstr "null"
  · exact ⟨none, by rw [if_pos h]⟩
  · rw [if_neg h]
    cases v with
    | vnum q => exact ⟨some q, rfl⟩
    | vnone => exact ⟨none, rfl⟩
    | vstr s => exact cleanedParse_catch_ok _

lemma extractDistanceNumber_ok (v : PyVal) :
    ∃ r, extractDistanceNumber v = .ok r := by
  rw [extractDistanceNumber.eq_def]
  by_cases h : (truthy v = false) ∨ v = .vstr "null"
  · exact ⟨none, by rw [if_pos h]⟩
  · rw [if_neg h]
    cases v with
    | vnum q => exact ⟨some q, rfl⟩
    | vnone => exact ⟨none, rfl⟩
    | vstr s =>
      cases hp : distFromPatterns (pyLower (pyStrip s.toList)) distanceUnits with
      | some q => exact ⟨some q, by dsimp only; rw [hp]⟩
      | none =>
        obtain ⟨r, hr⟩ := cleanedParse_catch_ok (pyLower (pyStrip s.toList))
        exact ⟨r, by dsimp only; rw [hp, hr]⟩

lemma calculatePricePerKm_ok (v w : PyVal) :
    ∃ r, calculatePricePerKm v w = .ok r := by
  obtain ⟨r1, h1⟩ := extractFeeNumber_ok v
  obtain ⟨r2, h2⟩ := extractDistanceNumber_ok w
  rw [calculatePricePerKm, h1, h2]
  simp only [Bind.bind, Except.bind]
  rcases r1 with _ | f <;> rcases r2 with _ | d
  · exact ⟨none, rfl⟩
  · exact ⟨none, rfl⟩
  · exact ⟨none, rfl⟩
  · by_cases hd : d ≤ 0
    · exact ⟨none, by simp [hd]⟩
    · by_cases hf : f < 0
      · exact ⟨none, by simp [hd, hf]⟩
      · exact ⟨some (round2 (f / d)), by simp [hd, hf]⟩

lemma digitsVal_cast_nonneg (cs : List Char) : (0 : ℚ) ≤ (digitsVal cs : ℚ) := by
  positivity

lemma parseDigitsDots_nonneg {cs : List Char} {q : ℚ}
    (h : parseDigitsDots cs = some q) : 0 ≤ q := by
  rw [parseDigitsDots] at h
  dsimp only at h
  split at h
  · split at h
    · exact absurd h (by simp)
    · injection h with h
      rw [← h]
      positivity
  · split at h
    · split at h
      · injection h with h
        rw [← h]
        positivity
      · exact absurd h (by simp)
    · exact absurd h (by simp)

lemma cleanedParse_catch_nonneg {cs : List Char} {q : ℚ}
    (h : catchValueError (cleanedParse cs) = .ok (some q)) : 0 ≤ q := by
  rw [cleanedParse] at h
  by_cases he : (cleanNumChars cs).isEmpty = true
  · rw [if_pos he] at h
    exact absurd h (by simp [catchValueError])
  · rw [if_neg he] at h
    cases hp : parseDigitsDots (cleanNumChars cs) with
    | none => rw [hp] at h; exact absurd h (by simp [catchValueError])
    | some q' =>
      rw [hp] at h
      simp only [catchValueError] at h
      obtain rfl : q' = q := by injection h with h; injection h
      exact parseDigitsDots_nonneg hp

/-- Counterexample to C9 as stated: fee extraction passes numeric input
through unchanged, so the numeric input `-5` yields the negative fee `-5`
(no negativity rejection happens inside `extract_fee_number`). -/
theorem c9_counterexample :
    extractFeeNumber (.vnum (-5)) = .ok (some (-5)) ∧ ((-5 : ℚ) < 0) := by
  constructor
  · simp [extractFeeNumber, truthy]
  · norm_num

/-- C9 amended: the three normalizers are total — on every input they
return a canonical value or `None` and never propagate an exception (the
`except ValueError` handlers catch every raise) — and fee extraction from a
string can never produce a negative value because the cleaning step strips
the sign; only the numeric passthrough can return a negative number, and
negative fees are rejected downstream in `calculate_price_per_km`. -/
theorem c9_normalizers_total_amended :
    (∀ v, ∃ r, extractDistanceNumber v = .ok r) ∧
    (∀ v, ∃ r, extractFeeNumber v = .ok r) ∧
    (∀ v w, ∃ r, calculatePricePerKm v w = .ok r) ∧
    (∀ s q, extractFeeNumber (.vstr s) = .ok (some q) → 0 ≤ q) := by
  refine ⟨extractDistanceNumber_ok, extractFeeNumber_ok, calculatePricePerKm_ok, ?_⟩
  intro s q h
  rw [extractFeeNumber] at h
  by_cases hc : (truthy (PyVal.vstr s) = false) ∨ PyVal.vstr s = .vstr "null"
  · rw [if_pos hc] at h
    exact absurd h (by simp)
  · rw [if_neg hc] at h
    exact cleanedParse_catch_nonneg h

/-- Witness for the amended C9 at concrete inputs: the malformed string
`"abc"` maps to `None` without an exception, and the string fee `"80元"`
parses to the nonnegative value `80`. -/
theorem c9_normalizers_total_amended_witness :
    (∃ r, extractDistanceNumber (.vstr "abc") = .ok r) ∧
    (∃ r, calculatePricePerKm (.vstr "abc") (.vnum 10) = .ok r) ∧
    (0 : ℚ) ≤ 80 := by
  refine ⟨c9_normalizers_total_amended.1 (.vstr "abc"),
    c9_normalizers_total_amended.2.2.1 (.vstr "abc") (.vnum 10),
    c9_normalizers_total_amended.2.2.2 "80元" 80 ?_⟩
  rfl

/-- Counterexample to C6 as stated: with fee `120.00` and distance
`21.0975` the computed unit price is `5.69`, not the claimed `5.71`
(`120 / 21.0975 = 5.6878…`). -/
theorem c6_counterexample :
    calculatePricePerKm (.vnum 120) (.vnum (210975/10000)) ≠ .ok (some (571/100)) := by
  have h1 : extractFeeNumber (.vnum 120) = .ok (some 120) := by
    simp [extractFeeNumber, truthy]
  have h2 : extractDistanceNumber (.vnum (210975/10000)) = .ok (some (210975/10000)) := by
    simp [extractDistanceNumber, truthy]
  rw [calculatePricePerKm, h1, h2]
  simp only [Bind.bind, Except.bind]
  norm_num [round2, roundHalfEven]

/-- C6 amended: fee `120.00` over distance `42.195` gives unit price
`2.84`, and over distance `21.0975` gives `5.69` (two-decimal rounding). -/
theorem c6_unit_price_amended :
    calculatePricePerKm (.vnum 120) (.vnum (42195/1000)) = .ok (some (284/100)) ∧
    calculatePricePerKm (.vnum 120) (.vnum (210975/10000)) = .ok (some (569/100)) := by
  have h1 : extractFeeNumber (.vnum 120) = .ok (some 120) := by
    simp [extractFeeNumber, truthy]
  have h2 : extractDistanceNumber (.vnum (42195/1000)) = .ok (some (42195/1000)) := by
    simp [extractDistanceNumber, truthy]
  have h3 : extractDistanceNumber (.vnum (210975/10000)) = .ok (some (210975/10000)) := by
    simp [extractDistanceNumber, truthy]
  constructor
  · rw [calculatePricePerKm, h1, h2]
    simp only [Bind.bind, Except.bind]
    norm_num [round2, roundHalfEven]
  · rw [calculatePricePerKm, h1, h3]
    simp only [Bind.bind, Except.bind]
    norm_num [round2, roundHalfEven]

/-! ### Category name equivalence (claim C8)

Two distinct matchers exist in the source: the normalization-based one of
`smart_data_completer.py` and the keyword-overlap one of
`data_completer_enhanced.py`. -/

/-- Python substring test `nd in hay` on character lists. -/
def containsSub (nd : List Char) : List Char → Bool
  | [] => nd.isEmpty
  | c :: t => List.isPrefixOf nd (c :: t) || containsSub nd t

/-- The `any(k in name for k in keys)` idiom of `_normalize_category_name`. -/
def hasAnyKeyword (cs : List Char) (keys : List String) : Bool :=
  keys.any (fun k => containsSub k.toList cs)

/-- Embedding of `SmartDataCompleter._normalize_category_name`: empty input
maps to the empty string; otherwise the stripped lower-cased name is folded
to one of four canonical classes by keyword containment, in source order,
falling through to itself. -/
def normalizeCategoryName (name : String) : String :=
  if name = "" then ""
  else
    let cs := pyLower (pyStrip name.toList)
    if hasAnyKeyword cs ["全程", "全马", "full", "marathon", "42"] then "全程马拉松"
    else if hasAnyKeyword cs ["半程", "半马", "half", "21"] then "半程马拉松"
    else if containsSub "10".toList cs || containsSub "十公里".toList cs then "10公里"
    else if containsSub "5".toList cs || containsSub "五公里".toList cs then "5公里"
    else String.mk cs

/-- Embedding of `SmartDataCompleter._is_similar_category_name`: equality of
normalized names. -/
def isSimilarCategoryName (n1 n2 : String) : Bool :=
  normalizeCategoryName n1 == normalizeCategoryName n2

/-- Keyword list of `EnhancedDataCompleter._is_similar_category_name`. -/
def enhancedKeywords : List String :=
  ["全程", "半程", "马拉松", "迷你", "健康跑", "亲子跑", "10公里", "5公里", "10km", "5km"]

/-- Embedding of `EnhancedDataCompleter._is_similar_category_name`: similar
iff some keyword occurs in both lower-cased names. -/
def enhancedIsSimilar (n1 n2 : String) : Bool :=
  enhancedKeywords.any (fun k =>
    containsSub k.toList (pyLower n1.toList) && containsSub k.toList (pyLower n2.toList))

/-- Counterexample to C8 as stated: the enhanced completer's matcher (one of
the two cited equivalence routines) judges `半程马拉松` and `半马` as NOT
similar — they share no keyword from its list (`半马` contains neither
`半程` nor `马拉松`). -/
theorem c8_counterexample : enhancedIsSimilar "半程马拉松" "半马" = false := by decide

/-- C8 amended: the smart completer's normalization-based matcher judges
`半程马拉松` and `半马` equivalent (both fold to the half-marathon class via
the keyword path) and `全程马拉松` and `10公里` not equivalent; the enhanced
completer's keyword-overlap matcher judges both pairs not similar. -/
theorem c8_category_matching_amended :
    isSimilarCategoryName "半程马拉松" "半马" = true ∧
    isSimilarCategoryName "全程马拉松" "10公里" = false ∧
    enhancedIsSimilar "半程马拉松" "半马" = false ∧
    enhancedIsSimilar "全程马拉松" "10公里" = false := by
  refine ⟨by decide, by decide, by decide, by decide⟩

/-! ### Consensus resolution, `smart_data_completer.py` (claims C2, C7)

The fee block of `_merge_single_category` resolves the fee of one matched
category group; `_weighted_consensus` and `_calculate_field_confidence`
resolve the event-level `total_scale`.  Values are modelled numerically
(the source stores `str(value)`). -/

/-- One candidate category entering `_merge_single_category`: its `fee`
value and the `confidence` attached from the source's `confidence_base`. -/
structure SourceCat where
  fee : PyVal
  confidence : ℚ

/-- The per-candidate fee parse
`float(re.sub(r'[^\d.]', '', str(c['fee'])))`: strings are cleaned to
digits and dots and parsed; for a number, Python renders it in decimal and
the cleaning drops any sign, so the parse returns its absolute value
(modelling scope: no exponent rendering). -/
def feeCandParse : PyVal → Option ℚ
  | .vstr s => parseDigitsDots (cleanNumChars s.toList)
  | .vnum q => some (if q < 0 then -q else q)
  | .vnone => none

/-- The fee sanity filter of `_merge_single_category`: a candidate survives
when its fee is truthy, not the literal `'null'`, parses, and lies strictly
between 0 and 1000; parse failures are skipped (`except: pass`). -/
def feeSurvivors (cats : List SourceCat) : List ℚ :=
  cats.filterMap (fun c =>
    if truthy c.fee ∧ c.fee ≠ .vstr "null" then
      match feeCandParse c.fee with
      | some q => if 0 < q ∧ q < 1000 then some q else none
      | none => none
    else none)

/-- Python `statistics.median`: middle element of the sorted list, or the
mean of the two middle elements (the source only calls it on nonempty
lists; the empty case defaults to 0 here). -/
def pyMedian (l : List ℚ) : ℚ :=
  let s := l.insertionSort (· ≤ ·)
  if l.length % 2 = 1 then s.getD (l.length / 2) 0
  else (s.getD (l.length / 2 - 1) 0 + s.getD (l.length / 2) 0) / 2

/-- The fee block of `_merge_single_category`: `none` when no candidate
survives; a single survivor is taken with `fee_confidence = 1.0`; multiple
survivors resolve to the median with
`fee_confidence = 1 − mean(|f − median| / median)` (unweighted, not floored
at 0). -/
def mergeFee (cats : List SourceCat) : Option (ℚ × ℚ) :=
  let fees := feeSurvivors cats
  if fees.isEmpty then none
  else if fees.length = 1 then some (fees.getD 0 0, 1)
  else
    some (pyMedian fees,
      1 - ((fees.map (fun f => |f - pyMedian fees| / pyMedian fees)).sum
            / (fees.length : ℚ)))

/-- One weighted `total_scale` observation (`value`, `confidence`). -/
structure WeightedVal where
  value : ℚ
  confidence : ℚ

/-- Python `int()` truncation toward zero of a rational. -/
def pyInt (q : ℚ) : ℤ := Int.tdiv q.num (q.den : ℤ)

/-- Embedding of `SmartDataCompleter._weighted_consensus` (numeric content;
the source wraps the result in `str`, with `'null'` — here `none` — for an
empty list): a single value is returned as is, otherwise the
confidence-weighted mean truncated to an integer, falling back to the first
value when the total weight is not positive. -/
def weightedConsensus (vs : List WeightedVal) : Option ℚ :=
  match vs with
  | [] => none
  | [v] => some v.value
  | _ =>
    let tw := (vs.map (·.confidence)).sum
    let ws := (vs.map (fun v => v.value * v.confidence)).sum
    if 0 < tw then some ((pyInt (ws / tw) : ℤ) : ℚ)
    else some ((vs.headD ⟨0, 0⟩).value)

/-- Embedding of `SmartDataCompleter._calculate_field_confidence`: 0 for no
values, the source's own confidence for a single value, else the mean
confidence times `max 0 (1 − mean(|n − avg| / avg))` where `avg` is the
plain mean (deviations are taken from the mean, not the median, and only
when the mean is positive). -/
def calculateFieldConfidence (vs : List WeightedVal) : ℚ :=
  match vs with
  | [] => 0
  | [v] => v.confidence
  | _ =>
    let nums := vs.map (·.value)
    let avg := nums.sum / (vs.length : ℚ)
    let variations := if 0 < avg then nums.map (fun n => |n - avg| / avg) else []
    let avgVar := if variations.isEmpty then 0
      else variations.sum / (variations.length : ℚ)
    ((vs.map (·.confidence)).sum / (vs.length : ℚ)) * max 0 (1 - avgVar)

/-- Modelled from the spec (refinement comparison only): the
disagreement-branch confidence of §4.3, `(mean of weights) × (1 − mean
relative deviation from the median), floored at 0`. -/
def specDisagreementConfidence (ws vals : List ℚ) : ℚ :=
  (ws.sum / (ws.length : ℚ)) *
    max 0 (1 - ((vals.map (fun v => |v - pyMedian vals| / pyMedian vals)).sum
                  / (vals.length : ℚ)))

/-- Counterexample to C2 as stated: on the spec's own fee example
`[(100, w=1.0), (100, w=0.9), (500, w=0.5)]` the code resolves the value to
the median `100`, but the confidence is `1 − mean(|f − 100|/100) = −1/3` —
unweighted and not floored at 0 — whereas the claimed formula
`(mean of weights) × (1 − mean relative deviation), floored at 0` gives 0. -/
theorem c2_counterexample :
    mergeFee [⟨.vnum 100, 1⟩, ⟨.vnum 100, 9/10⟩, ⟨.vnum 500, 1/2⟩]
      = some (100, -(1/3)) ∧
    specDisagreementConfidence [1, 9/10, 1/2] [100, 100, 500] = 0 ∧
    (-(1/3) : ℚ) ≠ 0 := by
  refine ⟨?_, ?_, by norm_num⟩
  · have hs : feeSurvivors [⟨.vnum 100, 1⟩, ⟨.vnum 100, 9/10⟩, ⟨.vnum 500, 1/2⟩]
        = [100, 100, 500] := by decide
    rw [mergeFee, hs]
    norm_num [pyMedian, List.insertionSort, List.orderedInsert]
  · norm_num [specDisagreementConfidence, pyMedian, List.insertionSort,
      List.orderedInsert]

/-- C2 amended: for fee fields the code has no agreement/weighted-mean
branch and no weighting: with two or more surviving candidates the resolved
value is always the median and the confidence is
`1 − mean(|f − median|/median)`, which ignores the source weights and can
be negative.  On the spec's example the resolved value is 100 and the
confidence `−1/3`, which is indeed strictly below the mean weight 0.8. -/
theorem c2_fee_consensus_amended :
    mergeFee [⟨.vnum 100, 1⟩, ⟨.vnum 100, 9/10⟩, ⟨.vnum 500, 1/2⟩]
      = some (pyMedian [100, 100, 500],
          1 - ((|(100 : ℚ) - 100| / 100 + |(100 : ℚ) - 100| / 100
                + |(500 : ℚ) - 100| / 100) / 3)) ∧
    pyMedian [100, 100, 500] = 100 ∧
    (-(1/3) : ℚ) < ((1 : ℚ) + 9/10 + 1/2) / 3 := by
  refine ⟨?_, ?_, by norm_num⟩
  · have hs : feeSurvivors [⟨.vnum 100, 1⟩, ⟨.vnum 100, 9/10⟩, ⟨.vnum 500, 1/2⟩]
        = [100, 100, 500] := by decide
    rw [mergeFee, hs]
    norm_num [pyMedian, List.insertionSort, List.orderedInsert]
  · norm_num [pyMedian, List.insertionSort, List.orderedInsert]

/-- Counterexample to C7 as stated: a single surviving fee candidate from a
source of weight `0.5` resolves with `fee_confidence = 1.0`, not the
source's weight. -/
theorem c7_counterexample :
    mergeFee [⟨.vnum 100, 1/2⟩] = some (100, 1) ∧ ((1 : ℚ) ≠ 1/2) := by
  constructor
  · have hs : feeSurvivors [⟨.vnum 100, 1/2⟩] = [100] := by decide
    rw [mergeFee, hs]
    norm_num
  · norm_num

/-- C7 amended: with exactly one surviving candidate the resolved value is
that candidate's value in both resolvers; the confidence equals the source
weight in `_calculate_field_confidence` (the `total_scale` path) but is the
constant `1.0` in the per-category fee path of `_merge_single_category`. -/
theorem c7_single_candidate_amended :
    (∀ v : WeightedVal, weightedConsensus [v] = some v.value ∧
      calculateFieldConfidence [v] = v.confidence) ∧
    (∀ (c : SourceCat) (q : ℚ), feeSurvivors [c] = [q] →
      mergeFee [c] = some (q, 1)) := by
  constructor
  · intro v
    exact ⟨rfl, rfl⟩
  · intro c q h
    rw [mergeFee, h]
    norm_num

/-- Witness for the amended C7 at concrete inputs. -/
theorem c7_single_candidate_amended_witness :
    weightedConsensus [⟨80, 9/10⟩] = some (80 : ℚ) ∧
    calculateFieldConfidence [⟨80, 9/10⟩] = 9/10 ∧
    mergeFee [⟨.vnum 200, 3/10⟩] = some (200, 1) := by
  refine ⟨?_, ?_, ?_⟩
  · have h := (c7_single_candidate_amended.1 ⟨80, 9/10⟩).1
    simpa using h
  · have h := (c7_single_candidate_amended.1 ⟨80, 9/10⟩).2
    simpa using h
  · exact c7_single_candidate_amended.2 ⟨.vnum 200, 3/10⟩ 200 (by decide)

/-! ### Manual-edit import, `race_events_manager.py` (claims C4, C5)

`import_manual_edits` updates matched rows from spreadsheet cells and marks
the written fields in `manually_modified_fields`.  Cells are modelled by
`ECell` (absent column, pandas NaN, number, string); the Excel-column to
DB-field renaming of the two mapping dicts is applied up front, so imported
rows are keyed by DB field names.  Float-parsing scope as for `pyFloat`. -/

/-- One cell of an imported spreadsheet row. -/
inductive ECell where
  | absent
  | nanCell
  | eNum (q : ℚ)
  | eStr (s : String)
deriving DecidableEq

/-- An imported row, keyed by DB field names. -/
def ERow : Type := String → ECell

/-- DB fields handled by the numeric branch of
`_update_race_category_with_mark`. -/
def manualNumFields : List String :=
  ["distance_numeric", "fee", "price_per_km", "zaoniao_fee", "total_quota",
   "registered_count"]

/-- DB fields of the import's `category_field_mapping`, in source order. -/
def manualCatFields : List String :=
  ["name", "distance_numeric", "fee", "price_per_km", "zaoniao_fee",
   "total_quota", "start_time", "cutoff_time"]

/-- DB fields of the import's `event_field_mapping`, in source order. -/
def manualEventFields : List String :=
  ["event_id", "name", "event_date", "event_level", "location",
   "detailed_address", "total_scale", "registration_fee", "organizer",
   "host_units", "co_organizers", "supporters", "contact_phone",
   "contact_email", "contact_person", "registration_deadline"]

/-- Python `str()` of a number.  The embedded comparisons only rely on this
rendering being a fixed function of the value; CPython float formatting
differences are outside the modelled scope. -/
def pyStrNum (q : ℚ) : String := toString q

/-- The numeric-branch parse
`float(excel_val) if not pd.isna(excel_val) and excel_val not in
['', 'None', 'nan'] else None`; an unparseable string raises `ValueError`. -/
def excelFloat : ECell → Except PyExc (Option ℚ)
  | .nanCell => .ok none
  | .eNum q => .ok (some q)
  | .eStr s =>
    if s = "" ∨ s = "None" ∨ s = "nan" then .ok none
    else
      match pyFloat s with
      | some q => .ok (some q)
      | none => .error .valueError
  | .absent => .ok none

/-- `float(db_val) if db_val is not None else None` on a stored value (also
used by the forced unit-price recomputation; an unparseable stored string
raises). -/
def dbFloat : PyVal → Except PyExc (Option ℚ)
  | .vnone => .ok none
  | .vnum q => .ok (some q)
  | .vstr s =>
    match pyFloat s with
    | some q => .ok (some q)
    | none => .error .valueError

/-- Outcome of the numeric branch for one field: `none` means an exception
fell through to the string branch (`except: pass`); `some none` means
`continue` without a write; `some (some q)` means write `q`.  Equal-enough
values (`abs difference < 0.01`) and the both-`None` case are skipped; a
parseable excel number is written whenever the values differ or the stored
value is `None`. -/
def numericBranch (ev : ECell) (dbv : PyVal) : Option (Option ℚ) :=
  match excelFloat ev, dbFloat dbv with
  | .ok en, .ok dn =>
    match en, dn with
    | some e, some d => if |e - d| < 1/100 then some none else some (some e)
    | none, none => some none
    | some e, none => some (some e)
    | none, some _ => some none
  | _, _ => none

/-- `str(excel_val).strip()` with pandas NaN reading as the empty string. -/
def strOfECell : ECell → String
  | .nanCell => ""
  | .eStr s => String.mk (pyStrip s.toList)
  | .eNum q => String.mk (pyStrip (pyStrNum q).toList)
  | .absent => ""

/-- `str(db_val).strip() if db_val is not None else ''`. -/
def strOfDb : PyVal → String
  | .vnone => ""
  | .vstr s => String.mk (pyStrip s.toList)
  | .vnum q => String.mk (pyStrip (pyStrNum q).toList)

/-- The string branch: the stripped excel string is written when nonempty,
not a textual `'nan'`/`'None'`, and different from the stored string. -/
def stringBranch (ev : ECell) (dbv : PyVal) : Option String :=
  if strOfECell ev ≠ "" ∧ strOfECell ev ≠ "nan" ∧ strOfECell ev ≠ "None" ∧
      strOfECell ev ≠ strOfDb dbv then some (strOfECell ev)
  else none

/-- Python dict assignment on an insertion-ordered association list
(overwrite in place, else append). -/
def setKV (l : List (String × PyVal)) (k : String) (v : PyVal) :
    List (String × PyVal) :=
  if l.any (fun p => p.1 == k) then
    l.map (fun p => if p.1 = k then (k, v) else p)
  else l ++ [(k, v)]

/-- Python `dict.get` on the association list. -/
def lookupKV (l : List (String × PyVal)) (k : String) : Option PyVal :=
  (l.find? (fun p => p.1 == k)).map (·.2)

/-- Processing of one field of `_update_race_category_with_mark`: numeric
fields run the numeric branch, falling through to the string branch only on
an exception; other fields run the string branch directly. -/
def catStep (db : Row) (ex : ERow) (acc : List (String × PyVal))
    (f : String) : List (String × PyVal) :=
  match ex f with
  | .absent => acc
  | ev =>
    if f ∈ manualNumFields then
      match numericBranch ev (db.fields f) with
      | some none => acc
      | some (some q) => setKV acc f (.vnum q)
      | none =>
        match stringBranch ev (db.fields f) with
        | some s => setKV acc f (.vstr s)
        | none => acc
    else
      match stringBranch ev (db.fields f) with
      | some s => setKV acc f (.vstr s)
      | none => acc

/-- The field loop of `_update_race_category_with_mark`, producing
`update_values` in insertion order. -/
def computeCatUpdates (db : Row) (ex : ERow) : List (String × PyVal) :=
  manualCatFields.foldl (catStep db ex) []

/-- The marking loop: each key of `update_values` is appended to
`manually_modified_fields` unless already present or excluded. -/
def markFields (mm : List String) (keys : List String)
    (excl : List String) : List String :=
  keys.foldl (fun m f => if f ∈ m ∨ f ∈ excl then m else m ++ [f]) mm

/-- Result of one manual row update: the final `update_values` and the new
`manually_modified_fields`. -/
structure ManualUpdate where
  writes : List (String × PyVal)
  mm : List String
deriving DecidableEq

/-- Embedding of `RaceEventsManager._update_race_category_with_mark`:
`none` models `return False` (empty `update_values`, no write).  Otherwise
the written fields are marked — excluding `updated_at`, `created_at` and
`price_per_km` — and then the unit price is forcibly recomputed: with the
pending (else stored) distance and fee both truthy, `price_per_km` is
overwritten with `round(float(fee)/float(distance), 2)`; a raise inside
the recomputation (unparseable operand or division by zero) is caught and
leaves `update_values` unchanged. -/
def updateRaceCategoryWithMark (db : Row) (ex : ERow) : Option ManualUpdate :=
  let uv := computeCatUpdates db ex
  if uv.isEmpty then none
  else
    let mm2 := markFields db.mm (uv.map Prod.fst)
      ["updated_at", "created_at", "price_per_km"]
    let distV := (lookupKV uv "distance_numeric").getD (db.fields "distance_numeric")
    let feeV := (lookupKV uv "fee").getD (db.fields "fee")
    let uv2 :=
      if truthy distV ∧ truthy feeV then
        match dbFloat feeV, dbFloat distV with
        | .ok (some f), .ok (some d) =>
          if d = 0 then uv else setKV uv "price_per_km" (.vnum (round2 (f / d)))
        | _, _ => uv
      else uv
    some ⟨uv2, mm2⟩

/-- Processing of one field of `_update_race_event_with_mark` (string
branch only, also for the numeric `total_scale` column). -/
def eventStep (db : Row) (ex : ERow) (acc : List (String × PyVal))
    (f : String) : List (String × PyVal) :=
  match ex f with
  | .absent => acc
  | ev =>
    match stringBranch ev (db.fields f) with
    | some s => setKV acc f (.vstr s)
    | none => acc

/-- The field loop of `_update_race_event_with_mark`. -/
def computeEventUpdates (db : Row) (ex : ERow) : List (String × PyVal) :=
  manualEventFields.foldl (eventStep db ex) []

/-- Embedding of `RaceEventsManager._update_race_event_with_mark`: every
written field is marked (the excluded `updated_at`/`created_at` never occur
among the mapped fields). -/
def updateRaceEventWithMark (db : Row) (ex : ERow) : Option ManualUpdate :=
  let uv := computeEventUpdates db ex
  if uv.isEmpty then none
  else some ⟨uv, markFields db.mm (uv.map Prod.fst) ["updated_at", "created_at"]⟩

lemma mem_keys_setKV {l : List (String × PyVal)} {k f : String} {v : PyVal}
    (h : f ∈ (setKV l k v).map Prod.fst) :
    f ∈ l.map Prod.fst ∨ f = k := by
  rw [setKV] at h
  by_cases ha : l.any (fun p => p.1 == k)
  · rw [if_pos ha] at h
    obtain ⟨p, hp, hf⟩ := List.mem_map.mp h
    obtain ⟨p0, hp0, he⟩ := List.mem_map.mp hp
    by_cases hk : p0.1 = k
    · right
      rw [if_pos hk] at he
      rw [← he] at hf
      exact hf.symm
    · left
      rw [if_neg hk] at he
      exact List.mem_map.mpr ⟨p0, hp0, he ▸ hf⟩
  · rw [if_neg ha, List.map_append] at h
    rcases List.mem_append.mp h with h | h
    · exact Or.inl h
    · right
      simpa using h

lemma lookupKV_setKV_self (l : List (String × PyVal)) (k : String) (v : PyVal) :
    lookupKV (setKV l k v) k = some v := by
  rw [setKV]
  by_cases ha : l.any (fun p => p.1 == k)
  · rw [if_pos ha, lookupKV, List.find?_map]
    have hpred : ((fun p : String × PyVal => p.1 == k) ∘
        (fun p : String × PyVal => if p.1 = k then (k, v) else p))
          = fun p : String × PyVal => p.1 == k := by
      funext p
      by_cases hk : p.1 = k <;> simp [Function.comp, hk]
    rw [hpred]
    cases hf : l.find? (fun p => p.1 == k) with
    | none =>
      obtain ⟨p, hp, hpk⟩ := List.any_eq_true.mp ha
      exact absurd (List.find?_eq_none.mp hf p hp) (by simp [hpk])
    | some p0 =>
      have hk : p0.1 = k := by simpa using List.find?_some hf
      simp [hk]
  · rw [if_neg ha, lookupKV]
    have hnone : l.find? (fun p => p.1 == k) = none := by
      rw [List.find?_eq_none]
      intro p hp hpk
      exact ha (List.any_eq_true.mpr ⟨p, hp, hpk⟩)
    rw [List.find?_append, hnone]
    simp

lemma mem_keys_catStep {db : Row} {ex : ERow} {acc : List (String × PyVal)}
    {f g : String} (h : g ∈ (catStep db ex acc f).map Prod.fst) :
    g ∈ acc.map Prod.fst ∨ g = f := by
  rw [catStep] at h
  split at h
  · exact Or.inl h
  · split at h
    · split at h
      · exact Or.inl h
      · exact mem_keys_setKV h
      · split at h
        · exact mem_keys_setKV h
        · exact Or.inl h
    · split at h
      · exact mem_keys_setKV h
      · exact Or.inl h

lemma mem_keys_foldl_catStep (db : Row) (ex : ERow) :
    ∀ (fields : List String) (acc : List (String × PyVal)) (g : String),
    g ∈ ((fields.foldl (catStep db ex) acc).map Prod.fst) →
    g ∈ acc.map Prod.fst ∨ g ∈ fields := by
  intro fields
  induction fields with
  | nil => intro acc g h; exact Or.inl h
  | cons f fs ih =>
    intro acc g h
    rcases ih (catStep db ex acc f) g h with h2 | h2
    · rcases mem_keys_catStep h2 with h3 | h3
      · exact Or.inl h3
      · exact Or.inr (h3 ▸ List.mem_cons_self f fs)
    · exact Or.inr (List.mem_cons_of_mem f h2)

lemma mem_keys_eventStep {db : Row} {ex : ERow} {acc : List (String × PyVal)}
    {f g : String} (h : g ∈ (eventStep db ex acc f).map Prod.fst) :
    g ∈ acc.map Prod.fst ∨ g = f := by
  rw [eventStep] at h
  split at h
  · exact Or.inl h
  · split at h
    · exact mem_keys_setKV h
    · exact Or.inl h

lemma mem_keys_foldl_eventStep (db : Row) (ex : ERow) :
    ∀ (fields : List String) (acc : List (String × PyVal)) (g : String),
    g ∈ ((fields.foldl (eventStep db ex) acc).map Prod.fst) →
    g ∈ acc.map Prod.fst ∨ g ∈ fields := by
  intro fields
  induction fields with
  | nil => intro acc g h; exact Or.inl h
  | cons f fs ih =>
    intro acc g h
    rcases ih (eventStep db ex acc f) g h with h2 | h2
    · rcases mem_keys_eventStep h2 with h3 | h3
      · exact Or.inl h3
      · exact Or.inr (h3 ▸ List.mem_cons_self f fs)
    · exact Or.inr (List.mem_cons_of_mem f h2)

lemma markFields_mono {mm : List String} {x : String} (keys excl : List String)
    (h : x ∈ mm) : x ∈ markFields mm keys excl := by
  induction keys generalizing mm with
  | nil => exact h
  | cons k ks ih =>
    rw [markFields, List.foldl_cons]
    by_cases hk : k ∈ mm ∨ k ∈ excl
    · rw [if_pos hk]
      exact ih h
    · rw [if_neg hk]
      exact ih (List.mem_append_left _ h)

lemma markFields_mem {mm keys excl : List String} {f : String}
    (hk : f ∈ keys) (he : f ∉ excl) : f ∈ markFields mm keys excl := by
  induction keys generalizing mm with
  | nil => simp at hk
  | cons k ks ih =>
    rw [markFields]
    rw [List.foldl_cons]
    rcases List.mem_cons.mp hk with rfl | hk2
    · by_cases hm : f ∈ mm ∨ f ∈ excl
      · have hf : f ∈ mm := hm.resolve_right he
        rw [if_pos hm]
        exact markFields_mono ks excl hf
      · rw [if_neg hm]
        exact markFields_mono ks excl (List.mem_append_right _ (by simp))
    · by_cases hm : k ∈ mm ∨ k ∈ excl
      · rw [if_pos hm]
        exact ih hk2
      · rw [if_neg hm]
        exact ih hk2

lemma upsert_mm_of_mem {c : Cand} {rows : List Row} {r' : Row}
    (h : r' ∈ upsert c rows) : r'.mm ∈ rows.map Row.mm ∨ r'.mm = [] := by
  induction rows with
  | nil =>
    right
    rw [show r' = insertCat c by simpa [upsert] using h]
    rfl
  | cons r rs ih =>
    by_cases hm : matchCat c r
    · rw [upsert, if_pos hm] at h
      rcases List.mem_cons.mp h with rfl | h2
      · exact Or.inl (by simp [updCat_mm])
      · exact Or.inl (List.mem_map.mpr ⟨r', List.mem_cons_of_mem r h2, rfl⟩)
    · rw [upsert, if_neg hm] at h
      rcases List.mem_cons.mp h with rfl | h2
      · exact Or.inl (by simp)
      · rcases ih h2 with h3 | h3
        · obtain ⟨r'', hr'', he⟩ := List.mem_map.mp h3
          exact Or.inl (List.mem_map.mpr ⟨r'', List.mem_cons_of_mem r hr'', he⟩)
        · exact Or.inr h3

lemma syncCats_mm_of_mem {rows : List Row} {cs : List Cand} {r' : Row}
    (h : r' ∈ syncCats rows cs) : r'.mm ∈ rows.map Row.mm ∨ r'.mm = [] := by
  induction cs generalizing rows with
  | nil => exact Or.inl (List.mem_map.mpr ⟨r', h, rfl⟩)
  | cons c cs ih =>
    rcases @ih (upsert c rows) h with h2 | h2
    · obtain ⟨r'', hr'', he⟩ := List.mem_map.mp h2
      rcases upsert_mm_of_mem hr'' with h3 | h3
      · exact Or.inl (he ▸ h3)
      · exact Or.inr (he ▸ h3)
    · exact Or.inr h2

/-- Counterexample to C5 as stated: importing a row that sets the fee to
100 against a stored category with distance 10 writes both `fee` and the
recomputed `price_per_km`, but marks only `fee` — the written field
`price_per_km` is never added to `manually_modified_fields` (the marking
loop excludes it explicitly). -/
theorem c5_counterexample :
    updateRaceCategoryWithMark
        ⟨fun f => if f = "distance_numeric" then .vnum 10 else .vnone, []⟩
        (fun f => if f = "fee" then .eNum 100 else .absent)
      = some ⟨[("fee", .vnum 100), ("price_per_km", .vnum 10)], ["fee"]⟩ ∧
    "price_per_km" ∈ ["fee", "price_per_km"] ∧
    "price_per_km" ∉ ["fee"] := by
  refine ⟨?_, by decide, by decide⟩
  have h1 : computeCatUpdates
      ⟨fun f => if f = "distance_numeric" then .vnum 10 else .vnone, []⟩
      (fun f => if f = "fee" then .eNum 100 else .absent)
        = [("fee", .vnum 100)] := by decide
  rw [updateRaceCategoryWithMark, h1]
  have h2 : round2 ((100 : ℚ) / 10) = 10 := by norm_num [round2, roundHalfEven]
  have h3 : lookupKV [("fee", PyVal.vnum 100)] "distance_numeric" = none := by decide
  have h4 : lookupKV [("fee", PyVal.vnum 100)] "fee" = some (PyVal.vnum 100) := by
    decide
  have h5 : ∀ v, setKV [("fee", PyVal.vnum 100)] "price_per_km" v
      = [("fee", PyVal.vnum 100), ("price_per_km", v)] := by
    intro v
    rw [setKV, if_neg (by decide)]
    rfl
  have h6 : markFields [] ["fee"] ["updated_at", "created_at", "price_per_km"]
      = ["fee"] := by decide
  simp +decide [h3, h4, h5, h6, h2, dbFloat, truthy]

/-- C5 amended: an automated sync pass never changes any
`manually_modified_fields` (event-level unchanged; every category row after
the pass either keeps its original list or is a fresh insert with the empty
list), and the manual-edit import marks every field it writes — except
`price_per_km`, which the category-level import writes (by forced
recomputation or direct import) without ever marking. -/
theorem c5_provenance_growth_amended :
    (∀ (st : SyncState) (cd : CrawlerData),
      (smartSyncPass st cd).event.mm = st.event.mm ∧
      ∀ r ∈ (smartSyncPass st cd).cats,
        r.mm ∈ st.cats.map Row.mm ∨ r.mm = []) ∧
    (∀ (db : Row) (ex : ERow) (u : ManualUpdate) (f : String),
      updateRaceCategoryWithMark db ex = some u →
      f ∈ u.writes.map Prod.fst → f ≠ "price_per_km" → f ∈ u.mm) ∧
    (∀ (db : Row) (ex : ERow) (u : ManualUpdate) (f : String),
      updateRaceEventWithMark db ex = some u →
      f ∈ u.writes.map Prod.fst → f ∈ u.mm) := by
  refine ⟨?_, ?_, ?_⟩
  · intro st cd
    exact ⟨rfl, fun r hr => syncCats_mm_of_mem hr⟩
  · intro db ex u f hu hf hppk
    rw [updateRaceCategoryWithMark] at hu
    by_cases hE : (computeCatUpdates db ex).isEmpty
    · rw [if_pos hE] at hu
      exact absurd hu (by simp)
    · rw [if_neg hE] at hu
      injection hu with hu
      subst hu
      have hkey : f ∈ (computeCatUpdates db ex).map Prod.fst := by
        dsimp only at hf
        split at hf
        · split at hf
          · split at hf
            · exact hf
            · rcases mem_keys_setKV hf with h | h
              · exact h
              · exact absurd h hppk
          · exact hf
        · exact hf
      have hfield : f ∈ manualCatFields :=
        (mem_keys_foldl_catStep db ex manualCatFields [] f hkey).resolve_left
          (by simp)
      have hexcl : f ∉ ["updated_at", "created_at", "price_per_km"] := by
        intro hmem
        simp only [List.mem_cons, List.not_mem_nil, or_false] at hmem
        rcases hmem with rfl | rfl | rfl
        · exact absurd hfield (by decide)
        · exact absurd hfield (by decide)
        · exact hppk rfl
      exact markFields_mem hkey hexcl
  · intro db ex u f hu hf
    rw [updateRaceEventWithMark] at hu
    by_cases hE : (computeEventUpdates db ex).isEmpty
    · rw [if_pos hE] at hu
      exact absurd hu (by simp)
    · rw [if_neg hE] at hu
      injection hu with hu
      subst hu
      have hfield : f ∈ manualEventFields :=
        (mem_keys_foldl_eventStep db ex manualEventFields [] f hf).resolve_left
          (by simp)
      have hexcl : f ∉ ["updated_at", "created_at"] := by
        intro hmem
        simp only [List.mem_cons, List.not_mem_nil, or_false] at hmem
        rcases hmem with rfl | rfl
        · exact absurd hfield (by decide)
        · exact absurd hfield (by decide)
      exact markFields_mem hf hexcl

/-- Witness for the amended C5 at concrete inputs: a sync pass leaves the
marks untouched, a category import of distance 5 marks `distance_numeric`,
and an event import of a new name marks `name`. -/
theorem c5_provenance_growth_amended_witness :
    ((smartSyncPass ⟨dRow, [dRow]⟩
        ⟨fun _ => none, [fun _ => none]⟩).event.mm = dRow.mm) ∧
    "distance_numeric" ∈
      (ManualUpdate.mk [("distance_numeric", .vnum 5)] ["distance_numeric"]).mm ∧
    "name" ∈ (ManualUpdate.mk [("name", .vstr "X")] ["name"]).mm := by
  refine ⟨(c5_provenance_growth_amended.1 ⟨dRow, [dRow]⟩
    ⟨fun _ => none, [fun _ => none]⟩).1, ?_, ?_⟩
  · exact c5_provenance_growth_amended.2.1 dRow
      (fun f => if f = "distance_numeric" then .eNum 5 else .absent)
      ⟨[("distance_numeric", .vnum 5)], ["distance_numeric"]⟩
      "distance_numeric" (by decide) (by decide) (by decide)
  · exact c5_provenance_growth_amended.2.2 dRow
      (fun f => if f = "name" then .eStr "X" else .absent)
      ⟨[("name", .vstr "X")], ["name"]⟩ "name" (by decide) (by decide)

/-- Counterexample to C4 as stated: the automated sync path copies a
candidate's `price_per_km` straight into the stored row
(`category_field_mapping` includes it), with no recomputation — here the
stored fee 100 and distance 10 would give unit price 10, yet the stored
unit price becomes the source-supplied 999. -/
theorem c4_counterexample :
    (updCat ⟨fun f => if f = "fee" then .vnum 100
          else if f = "distance_numeric" then .vnum 10 else .vnone, []⟩
        (fun f => if f = "price_per_km" then some (.vnum 999) else none)).fields
        "price_per_km" = .vnum 999 ∧
    PyVal.vnum 999 ≠ PyVal.vnum (round2 (100 / 10)) := by
  refine ⟨by decide, ?_⟩
  have h2 : round2 ((100 : ℚ) / 10) = 10 := by norm_num [round2, roundHalfEven]
  rw [h2]
  decide

/-- C4 amended: only the manual-import path recomputes the unit price —
when the pending (or stored) distance and fee are both truthy and parse,
`price_per_km` is overwritten with `round(fee/distance, 2)` — while the
automated sync path stores a truthy candidate `price_per_km` directly
whenever the field is unprotected, without recomputation. -/
theorem c4_unit_price_amended :
    (∀ (r : Row) (c : Cand), truthy (candVal c "price_per_km") →
      "price_per_km" ∉ r.mm →
      (updCat r c).fields "price_per_km" = candVal c "price_per_km") ∧
    (∀ (db : Row) (ex : ERow) (f d : ℚ),
      computeCatUpdates db ex ≠ [] →
      truthy ((lookupKV (computeCatUpdates db ex) "distance_numeric").getD
        (db.fields "distance_numeric")) →
      truthy ((lookupKV (computeCatUpdates db ex) "fee").getD
        (db.fields "fee")) →
      dbFloat ((lookupKV (computeCatUpdates db ex) "fee").getD
        (db.fields "fee")) = .ok (some f) →
      dbFloat ((lookupKV (computeCatUpdates db ex) "distance_numeric").getD
        (db.fields "distance_numeric")) = .ok (some d) →
      d ≠ 0 →
      ∃ u, updateRaceCategoryWithMark db ex = some u ∧
        lookupKV u.writes "price_per_km" = some (.vnum (round2 (f / d)))) := by
  constructor
  · intro r c ht hp
    rw [updCat]
    exact if_pos ⟨by decide, hp, ht⟩
  · intro db ex f d hne ht1 ht2 hf hd hd0
    rw [updateRaceCategoryWithMark]
    rw [if_neg (by simpa [List.isEmpty_iff] using hne)]
    refine ⟨_, rfl, ?_⟩
    dsimp only
    rw [if_pos ⟨ht1, ht2⟩, hf, hd]
    dsimp only
    rw [if_neg hd0]
    exact lookupKV_setKV_self _ _ _

/-- Witness for the amended C4: the sync stores a candidate unit price 999
directly; the import of fee 100 and distance 10 recomputes the unit price. -/
theorem c4_unit_price_amended_witness :
    ((updCat dRow (fun f => if f = "price_per_km" then some (.vnum 999) else none)).fields
        "price_per_km"
      = candVal (fun f => if f = "price_per_km" then some (.vnum 999) else none)
          "price_per_km") ∧
    (∃ u, updateRaceCategoryWithMark dRow
        (fun f => if f = "fee" then .eNum 100
          else if f = "distance_numeric" then .eNum 10 else .absent) = some u ∧
      lookupKV u.writes "price_per_km" = some (.vnum (round2 (100 / 10)))) := by
  constructor
  · exact c4_unit_price_amended.1 dRow
      (fun f => if f = "price_per_km" then some (.vnum 999) else none)
      (by decide) (by decide)
  · exact c4_unit_price_amended.2 dRow
      (fun f => if f = "fee" then .eNum 100
        else if f = "distance_numeric" then .eNum 10 else .absent)
      100 10 (by decide) (by decide) (by decide) (by decide) (by decide) (by decide)

end Zuiku
